import Mathlib

/-!
Verification of the ingestion-and-retrieval pipeline of the
`Github_Repo_Chatbot` repository, shallowly embedded in Lean.

The Python modules `app/chunker.py`, `app/agent.py`, `app/embedder.py` and
`app/vector_store.py` are translated below.  Python strings become `String`,
Python lists become `List`, Python integers become `Nat`, fallible external
calls (embedding API, vector store, chat API) become oracle parameters
returning `Except`.  The subword tokenizer (`tiktoken`) is an external
library and is modelled as an abstract token-counting oracle
`tok : String → Nat`, exactly the role `CodeChunker.count_tokens` plays in
the source.
-/

/-! ## Python string primitives

`pySplitNl` models Python's `content.split('\n')` and `joinNl` models
`'\n'.join(lines)`, both defined at the character level so that their
algebra is provable.  Python's `split` on a one-character separator never
collapses separators and returns `[""]` on the empty string.
-/

def splitNlChars : List Char → List (List Char)
  | [] => [[]]
  | c :: cs =>
    if c = '\n' then [] :: splitNlChars cs
    else
      match splitNlChars cs with
      | [] => [[c]]
      | l :: ls => (c :: l) :: ls

/-- Python `s.split('\n')`. -/
def pySplitNl (s : String) : List String :=
  (splitNlChars s.data).map String.mk

/-- Python `'\n'.join(ls)`. -/
def joinNl : List String → String
  | [] => ""
  | [l] => l
  | l :: ls => l ++ "\n" ++ joinNl ls

/-- Character-level companion of `joinNl`. -/
def joinNlChars : List (List Char) → List Char
  | [] => []
  | [l] => l
  | l :: ls => l ++ '\n' :: joinNlChars ls

theorem splitNlChars_ne_nil (cs : List Char) : splitNlChars cs ≠ [] := by
  induction cs with
  | nil => simp [splitNlChars]
  | cons c cs ih =>
    simp only [splitNlChars]
    split
    · simp
    · split
      · simp
      · simp

theorem pySplitNl_ne_nil (s : String) : pySplitNl s ≠ [] := by
  unfold pySplitNl
  intro h
  exact splitNlChars_ne_nil s.data (by simpa using h)

theorem not_newline_mem_splitNlChars (cs : List Char) :
    ∀ l ∈ splitNlChars cs, '\n' ∉ l := by
  induction cs with
  | nil => simp [splitNlChars]
  | cons c cs ih =>
    intro l hl
    simp only [splitNlChars] at hl
    by_cases hc : c = '\n'
    · rw [if_pos hc] at hl
      rcases List.mem_cons.1 hl with h | h
      · simp [h]
      · exact ih l h
    · rw [if_neg hc] at hl
      cases hsp : splitNlChars cs with
      | nil => exact absurd hsp (splitNlChars_ne_nil cs)
      | cons m ms =>
        rw [hsp] at hl
        rcases List.mem_cons.1 hl with h | h
        · subst h
          intro hmem
          rcases List.mem_cons.1 hmem with h | h
          · exact hc h.symm
          · exact ih m (by rw [hsp]; exact List.mem_cons_self m ms) h
        · exact ih l (by rw [hsp]; exact List.mem_cons_of_mem m h)

theorem not_newline_mem_pySplitNl (s : String) :
    ∀ l ∈ pySplitNl s, '\n' ∉ l.data := by
  intro l hl
  unfold pySplitNl at hl
  rcases List.mem_map.1 hl with ⟨cs, hcs, hmk⟩
  subst hmk
  exact not_newline_mem_splitNlChars s.data cs hcs

theorem splitNlChars_of_no_newline (l : List Char) (h : '\n' ∉ l) :
    splitNlChars l = [l] := by
  induction l with
  | nil => simp [splitNlChars]
  | cons c cs ih =>
    simp only [splitNlChars]
    have hc : ¬ c = '\n' := fun hc => h (by simp [hc])
    rw [if_neg hc, ih (fun hm => h (List.mem_cons_of_mem c hm))]

theorem splitNlChars_append_newline (l t : List Char) (h : '\n' ∉ l) :
    splitNlChars (l ++ '\n' :: t) = l :: splitNlChars t := by
  induction l with
  | nil => simp [splitNlChars]
  | cons c cs ih =>
    have hc : ¬ c = '\n' := fun hc => h (by simp [hc])
    have hrec := ih (fun hm => h (List.mem_cons_of_mem c hm))
    simp only [List.cons_append, splitNlChars, List.append_eq, if_neg hc, hrec]

theorem splitNlChars_joinNlChars (ls : List (List Char)) (hne : ls ≠ [])
    (h : ∀ l ∈ ls, '\n' ∉ l) :
    splitNlChars (joinNlChars ls) = ls := by
  induction ls with
  | nil => exact absurd rfl hne
  | cons l ls ih =>
    cases ls with
    | nil =>
      simp only [joinNlChars]
      exact splitNlChars_of_no_newline l (h l (List.mem_cons_self _ _))
    | cons m ms =>
      have hjoin : joinNlChars (l :: m :: ms) = l ++ '\n' :: joinNlChars (m :: ms) := rfl
      rw [hjoin,
        splitNlChars_append_newline l _ (h l (List.mem_cons_self _ _)),
        ih (by simp) (fun x hx => h x (List.mem_cons_of_mem l hx))]

theorem data_joinNl (ls : List String) :
    (joinNl ls).data = joinNlChars (ls.map String.data) := by
  induction ls with
  | nil => rfl
  | cons l ls ih =>
    cases ls with
    | nil => rfl
    | cons m ms =>
      have h1 : joinNl (l :: m :: ms) = l ++ "\n" ++ joinNl (m :: ms) := rfl
      have h2 : joinNlChars ((l :: m :: ms).map String.data)
          = l.data ++ '\n' :: joinNlChars ((m :: ms).map String.data) := rfl
      rw [h1, h2, ← ih]
      have h3 : (l ++ "\n" ++ joinNl (m :: ms)).data
          = (l.data ++ ['\n']) ++ (joinNl (m :: ms)).data := rfl
      rw [h3, List.append_assoc]
      rfl

/-- Round trip: splitting a newline-join of newline-free nonempty line list
gives back the line list. -/
theorem pySplitNl_joinNl (ls : List String) (hne : ls ≠ [])
    (h : ∀ l ∈ ls, '\n' ∉ l.data) :
    pySplitNl (joinNl ls) = ls := by
  unfold pySplitNl
  rw [data_joinNl, splitNlChars_joinNlChars (ls.map String.data)
    (by simpa using hne)
    (by intro l hl
        rcases List.mem_map.1 hl with ⟨x, hx, hdata⟩
        subst hdata
        exact h x hx)]
  rw [List.map_map]
  apply List.map_id''
  intro x
  rfl

/-! ## The chunker (`app/chunker.py`, `CodeChunker.chunk_by_lines`)

`tok` is the abstract tokenizer (`CodeChunker.count_tokens`); `maxSize` and
`overlap` are `self.max_chunk_size` and `self.chunk_overlap`.  A chunk dict
becomes the `Chunk` structure.
-/

structure Chunk where
  content : String
  file_path : String
  start_line : Nat
  end_line : Nat
  owner : String
  repo : String
deriving DecidableEq, Repr

/-- `self.count_tokens(line + '\n')`. -/
def lineTokens (tok : String → Nat) (l : String) : Nat := tok (l ++ "\n")

/-- `sum(self.count_tokens(l + '\n') for l in ls)`. -/
def tokenSum (tok : String → Nat) (ls : List String) : Nat :=
  (ls.map (lineTokens tok)).sum

/-- `current_chunk[-self.chunk_overlap:] if self.chunk_overlap else []`. -/
def overlapTail (overlap : Nat) (cur : List String) : List String :=
  if overlap = 0 then [] else cur.drop (cur.length - overlap)

/-- The `for i, line in enumerate(lines, 1)` loop of `chunk_by_lines`,
including the final flush after the loop.  Arguments after `total`
(`len(lines)`): remaining lines, the 1-based index `i` of the next line,
the accumulated `chunks`, `current_chunk`, `current_tokens`, `start_line`. -/
def chunkLoop (maxSize overlap : Nat) (tok : String → Nat)
    (fp owner repo : String) (total : Nat) :
    List String → Nat → List Chunk → List String → Nat → Nat → List Chunk
  | [], _i, chunks, cur, _t, start =>
    if cur = [] then chunks
    else chunks ++ [{ content := joinNl cur, file_path := fp, start_line := start,
                      end_line := total, owner := owner, repo := repo }]
  | l :: rest, i, chunks, cur, t, start =>
    let lt := lineTokens tok l
    if maxSize < t + lt ∧ cur ≠ [] then
      let ov := overlapTail overlap cur
      chunkLoop maxSize overlap tok fp owner repo total rest (i + 1)
        (chunks ++ [{ content := joinNl cur, file_path := fp, start_line := start,
                      end_line := i - 1, owner := owner, repo := repo }])
        (ov ++ [l]) (tokenSum tok (ov ++ [l])) (i - ov.length)
    else
      chunkLoop maxSize overlap tok fp owner repo total rest (i + 1)
        chunks (cur ++ [l]) (t + lt) start

/-- `CodeChunker.chunk_by_lines(content, file_path, owner, repo)`. -/
def CodeChunker.chunk_by_lines (maxSize overlap : Nat) (tok : String → Nat)
    (content fp owner repo : String) : List Chunk :=
  let lines := pySplitNl content
  chunkLoop maxSize overlap tok fp owner repo lines.length lines 1 [] [] 0 1

/-- A cheap concrete tokenizer used for concrete evaluations: one token per
character of `text` (standing in for `tiktoken`). -/
def charCount (s : String) : Nat := s.length

example :
    CodeChunker.chunk_by_lines 4 1 charCount "aa\nbb\ncc" "f" "o" "r"
      = [⟨"aa", "f", 1, 1, "o", "r"⟩, ⟨"aa\nbb", "f", 1, 2, "o", "r"⟩,
         ⟨"bb\ncc", "f", 2, 3, "o", "r"⟩] := by decide

/-! ## Chunker invariants -/

theorem tokenSum_append_singleton (tok : String → Nat) (xs : List String) (x : String) :
    tokenSum tok (xs ++ [x]) = tokenSum tok xs + lineTokens tok x := by
  simp [tokenSum]

theorem overlapTail_length_le (overlap : Nat) (cur : List String) :
    (overlapTail overlap cur).length ≤ overlap := by
  unfold overlapTail
  split
  · simp
  · rw [List.length_drop]
    omega

theorem overlapTail_length_le_cur (overlap : Nat) (cur : List String) :
    (overlapTail overlap cur).length ≤ cur.length := by
  unfold overlapTail
  split
  · simp
  · rw [List.length_drop]
    omega

theorem overlapTail_eq_drop (overlap : Nat) (cur : List String) :
    overlapTail overlap cur
      = cur.drop (cur.length - (overlapTail overlap cur).length) := by
  unfold overlapTail
  split
  · simp [List.drop_length]
  · rw [List.length_drop]
    congr 1
    omega

/-- Everything the loop establishes about an emitted chunk: line-range
bounds, content equal to the newline-join of the covered slice of the
source lines, and the token budget (or the overlap-seed size bound). -/
def GoodChunk (lines : List String) (tok : String → Nat) (maxSize overlap : Nat)
    (fp owner repo : String) (c : Chunk) : Prop :=
  1 ≤ c.start_line ∧ c.start_line ≤ c.end_line ∧ c.end_line ≤ lines.length ∧
  c.content = joinNl ((lines.take c.end_line).drop (c.start_line - 1)) ∧
  (tokenSum tok ((lines.take c.end_line).drop (c.start_line - 1)) ≤ maxSize ∨
    ((lines.take c.end_line).drop (c.start_line - 1)).length ≤ overlap + 1) ∧
  c.file_path = fp ∧ c.owner = owner ∧ c.repo = repo

/-- `end_line` of the last chunk, or the default `d` for an empty list. -/
def lastEndD (d : Nat) : List Chunk → Nat
  | [] => d
  | c :: cs => lastEndD c.end_line cs

/-- Concatenation of the chunks' line lists with the overlap-duplicated
leading lines of each chunk (the lines up to the previous chunk's
`end_line`) removed. -/
def dedupAfter (prevEnd : Nat) : List Chunk → List String
  | [] => []
  | c :: cs =>
    (pySplitNl c.content).drop (prevEnd + 1 - c.start_line) ++ dedupAfter c.end_line cs

def dedupConcat (cs : List Chunk) : List String := dedupAfter 0 cs

theorem lastEndD_append (d : Nat) (cs : List Chunk) (c : Chunk) :
    lastEndD d (cs ++ [c]) = c.end_line := by
  induction cs generalizing d with
  | nil => rfl
  | cons x xs ih => simpa [lastEndD] using ih x.end_line

theorem dedupAfter_append (d : Nat) (cs : List Chunk) (c : Chunk) :
    dedupAfter d (cs ++ [c])
      = dedupAfter d cs
        ++ (pySplitNl c.content).drop (lastEndD d cs + 1 - c.start_line) := by
  induction cs generalizing d with
  | nil => simp [dedupAfter, lastEndD]
  | cons x xs ih => simp [dedupAfter, lastEndD, ih x.end_line]

/-- Master invariant of the chunking loop.  `done` are the lines already
consumed, `rest` the ones still to process; the running buffer is always
the suffix `done.drop (start - 1)` of the consumed lines, and the emitted
chunks cover `lines.take (lastEndD 0 chunks)` after de-duplication. -/
theorem chunkLoop_invariant (maxSize overlap : Nat) (tok : String → Nat)
    (fp owner repo : String) (lines : List String)
    (hnl : ∀ l ∈ lines, '\n' ∉ l.data) :
    ∀ (rest done : List String) (chunks : List Chunk) (start : Nat),
      lines = done ++ rest →
      1 ≤ start → start - 1 ≤ done.length →
      (∀ c ∈ chunks, GoodChunk lines tok maxSize overlap fp owner repo c) →
      dedupAfter 0 chunks = lines.take (lastEndD 0 chunks) →
      start - 1 ≤ lastEndD 0 chunks →
      lastEndD 0 chunks ≤ done.length →
      (done.drop (start - 1) = [] → done = [] ∧ chunks = []) →
      (tokenSum tok (done.drop (start - 1)) ≤ maxSize ∨
        (done.drop (start - 1)).length ≤ overlap + 1) →
      (∀ c ∈ chunkLoop maxSize overlap tok fp owner repo lines.length rest
          (done.length + 1) chunks (done.drop (start - 1))
          (tokenSum tok (done.drop (start - 1))) start,
        GoodChunk lines tok maxSize overlap fp owner repo c) ∧
      (lines ≠ [] →
        dedupAfter 0 (chunkLoop maxSize overlap tok fp owner repo lines.length rest
          (done.length + 1) chunks (done.drop (start - 1))
          (tokenSum tok (done.drop (start - 1))) start) = lines ∧
        chunkLoop maxSize overlap tok fp owner repo lines.length rest
          (done.length + 1) chunks (done.drop (start - 1))
          (tokenSum tok (done.drop (start - 1))) start ≠ []) := by
  intro rest
  induction rest with
  | nil =>
    intro done chunks start hld h1 h2 h6 h7 h8a h8b h9 h10
    rw [List.append_nil] at hld
    subst hld
    by_cases hcur : lines.drop (start - 1) = []
    · rw [chunkLoop, if_pos hcur]
      refine ⟨h6, fun hlines => ?_⟩
      exact absurd (h9 hcur).1 hlines
    · rw [chunkLoop, if_neg hcur]
      have hlt : start - 1 < lines.length := by
        have hlen := List.length_drop (start - 1) lines
        have : (lines.drop (start - 1)).length ≠ 0 := by
          intro h0
          exact hcur (List.length_eq_zero.1 h0)
        omega
      have htake : lines.take lines.length = lines := List.take_length lines
      have hGc : GoodChunk lines tok maxSize overlap fp owner repo
          { content := joinNl (lines.drop (start - 1)), file_path := fp,
            start_line := start, end_line := lines.length, owner := owner, repo := repo } := by
        refine ⟨h1, by simpa using (by omega : start ≤ lines.length), le_refl _, ?_, ?_, rfl, rfl, rfl⟩
        · simp only [htake]
        · simpa only [htake] using h10
      constructor
      · intro c hc
        rcases List.mem_append.1 hc with h | h
        · exact h6 c h
        · rcases List.mem_singleton.1 h with rfl
          exact hGc
      · intro _
        refine ⟨?_, by simp⟩
        rw [dedupAfter_append]
        have hsplit : pySplitNl (joinNl (lines.drop (start - 1))) = lines.drop (start - 1) := by
          apply pySplitNl_joinNl _ hcur
          intro l hl
          exact hnl l (List.mem_of_mem_drop hl)
        simp only [hsplit]
        rw [List.drop_drop]
        have harith : (start - 1) + (lastEndD 0 chunks + 1 - start) = lastEndD 0 chunks := by
          omega
        rw [harith, h7, List.take_append_drop]
  | cons l rest' ih =>
    intro done chunks start hld h1 h2 h6 h7 h8a h8b h9 h10
    rw [chunkLoop]
    simp only []
    have hdl : done.length ≤ lines.length := by
      rw [hld, List.length_append]
      omega
    by_cases hcond : maxSize < tokenSum tok (done.drop (start - 1)) + lineTokens tok l ∧
        done.drop (start - 1) ≠ []
    · rw [if_pos hcond]
      obtain ⟨hover, hcur⟩ := hcond
      -- facts about the current chunk and the overlap seed
      have hlt : start - 1 < done.length := by
        have hlen := List.length_drop (start - 1) done
        have : (done.drop (start - 1)).length ≠ 0 := by
          intro h0
          exact hcur (List.length_eq_zero.1 h0)
        omega
      have hcl : (done.drop (start - 1)).length = done.length - (start - 1) :=
        List.length_drop _ _
      have hovc : (overlapTail overlap (done.drop (start - 1))).length
          ≤ (done.drop (start - 1)).length := overlapTail_length_le_cur _ _
      have hovo : (overlapTail overlap (done.drop (start - 1))).length ≤ overlap :=
        overlapTail_length_le _ _
      have hovd : (overlapTail overlap (done.drop (start - 1))).length ≤ done.length := by
        omega
      have hovdrop : overlapTail overlap (done.drop (start - 1))
          = done.drop (done.length - (overlapTail overlap (done.drop (start - 1))).length) := by
        conv_lhs => rw [overlapTail_eq_drop]
        rw [List.drop_drop]
        congr 1
        omega
      have htakedone : lines.take done.length = done := by
        rw [hld, List.take_left]
      -- the emitted chunk is good
      have hGc : GoodChunk lines tok maxSize overlap fp owner repo
          { content := joinNl (done.drop (start - 1)), file_path := fp,
            start_line := start, end_line := done.length + 1 - 1, owner := owner, repo := repo } := by
        refine ⟨h1, ?_, ?_, ?_, ?_, rfl, rfl, rfl⟩
        · simp only []
          omega
        · simp only []
          omega
        · simp only [Nat.add_sub_cancel, htakedone]
        · simp only [Nat.add_sub_cancel, htakedone]
          exact h10
      have h6' : ∀ c ∈ chunks ++
          [{ content := joinNl (done.drop (start - 1)), file_path := fp,
             start_line := start, end_line := done.length + 1 - 1, owner := owner, repo := repo }],
          GoodChunk lines tok maxSize overlap fp owner repo c := by
        intro c hc
        rcases List.mem_append.1 hc with h | h
        · exact h6 c h
        · rcases List.mem_singleton.1 h with rfl
          exact hGc
      -- the seeded buffer as a drop of `done ++ [l]`
      have hcur' : (done ++ [l]).drop
            ((done.length + 1 - (overlapTail overlap (done.drop (start - 1))).length) - 1)
          = overlapTail overlap (done.drop (start - 1)) ++ [l] := by
        have harith : (done.length + 1 - (overlapTail overlap (done.drop (start - 1))).length) - 1
            = done.length - (overlapTail overlap (done.drop (start - 1))).length := by
          omega
        rw [harith, List.drop_append_of_le_length (by omega), ← hovdrop]
      -- de-duplication invariant for the extended chunk list
      have hsplit : pySplitNl (joinNl (done.drop (start - 1))) = done.drop (start - 1) := by
        apply pySplitNl_joinNl _ hcur
        intro x hx
        refine hnl x ?_
        rw [hld]
        exact List.mem_append_left _ (List.mem_of_mem_drop hx)
      have h7' : dedupAfter 0 (chunks ++
          [{ content := joinNl (done.drop (start - 1)), file_path := fp,
             start_line := start, end_line := done.length + 1 - 1, owner := owner, repo := repo }])
          = lines.take (lastEndD 0 (chunks ++
              [{ content := joinNl (done.drop (start - 1)), file_path := fp,
                 start_line := start, end_line := done.length + 1 - 1, owner := owner,
                 repo := repo }])) := by
        rw [dedupAfter_append, lastEndD_append]
        simp only [hsplit, Nat.add_sub_cancel]
        rw [List.drop_drop]
        have harith : (start - 1) + (lastEndD 0 chunks + 1 - start) = lastEndD 0 chunks := by
          omega
        rw [harith, h7, htakedone]
        have htP : lines.take (lastEndD 0 chunks) = done.take (lastEndD 0 chunks) := by
          rw [hld, List.take_append_of_le_length h8b]
        rw [htP, List.take_append_drop]
      have hmain := ih (done ++ [l])
        (chunks ++
          [{ content := joinNl (done.drop (start - 1)), file_path := fp,
             start_line := start, end_line := done.length + 1 - 1, owner := owner, repo := repo }])
        (done.length + 1 - (overlapTail overlap (done.drop (start - 1))).length)
        (by rw [hld]; simp)
        (by omega)
        (by simp; omega)
        h6'
        h7'
        (by rw [lastEndD_append]; simp only []; omega)
        (by rw [lastEndD_append]; simp only [List.length_append]; omega)
        (by rw [hcur']; simp)
        (by rw [hcur']
            right
            simp only [List.length_append, List.length_cons, List.length_nil]
            omega)
      rw [hcur'] at hmain
      simpa only [List.length_append, List.length_cons, List.length_nil,
        Nat.add_assoc] using hmain
    · rw [if_neg hcond]
      have hnot : tokenSum tok (done.drop (start - 1)) + lineTokens tok l ≤ maxSize ∨
          done.drop (start - 1) = [] := by
        rcases not_and_or.1 hcond with h | h
        · left
          omega
        · right
          exact not_not.1 h
      have hcur' : (done ++ [l]).drop (start - 1) = done.drop (start - 1) ++ [l] :=
        List.drop_append_of_le_length h2
      have hmain := ih (done ++ [l]) chunks start
        (by rw [hld]; simp)
        h1
        (by simp; omega)
        h6
        h7
        h8a
        (by simp only [List.length_append]; omega)
        (by rw [hcur']; simp)
        (by rw [hcur']
            rcases hnot with h | h
            · left
              rw [tokenSum_append_singleton]
              exact h
            · right
              rw [h]
              simp [overlap.zero_le])
      rw [hcur', tokenSum_append_singleton] at hmain
      simpa only [List.length_append, List.length_cons, List.length_nil,
        Nat.add_assoc] using hmain

/-- Instantiation of the loop invariant at the entry point of
`chunk_by_lines`. -/
theorem chunk_by_lines_spec (maxSize overlap : Nat) (tok : String → Nat)
    (content fp owner repo : String) :
    (∀ c ∈ CodeChunker.chunk_by_lines maxSize overlap tok content fp owner repo,
      GoodChunk (pySplitNl content) tok maxSize overlap fp owner repo c) ∧
    dedupConcat (CodeChunker.chunk_by_lines maxSize overlap tok content fp owner repo)
      = pySplitNl content ∧
    CodeChunker.chunk_by_lines maxSize overlap tok content fp owner repo ≠ [] := by
  have h := chunkLoop_invariant maxSize overlap tok fp owner repo (pySplitNl content)
    (not_newline_mem_pySplitNl content) (pySplitNl content) [] [] 1
    (by simp) (le_refl 1) (by simp) (by simp) (by simp [dedupAfter, lastEndD])
    (by simp [lastEndD]) (by simp [lastEndD]) (by simp) (by simp [tokenSum])
  have he : CodeChunker.chunk_by_lines maxSize overlap tok content fp owner repo
      = chunkLoop maxSize overlap tok fp owner repo (pySplitNl content).length
        (pySplitNl content) (([] : List String).length + 1) []
        (([] : List String).drop (1 - 1))
        (tokenSum tok (([] : List String).drop (1 - 1))) 1 := rfl
  rw [he]
  exact ⟨h.1, (h.2 (pySplitNl_ne_nil content)).1, (h.2 (pySplitNl_ne_nil content)).2⟩

/-- Consequences of `GoodChunk` expressed on the chunk's own `content`:
its line list is exactly the covered slice of the source lines, with
`end_line − start_line + 1` lines. -/
theorem goodChunk_content_lines (content : String) (tok : String → Nat)
    (maxSize overlap : Nat) (fp owner repo : String) (c : Chunk)
    (h : GoodChunk (pySplitNl content) tok maxSize overlap fp owner repo c) :
    pySplitNl c.content = ((pySplitNl content).take c.end_line).drop (c.start_line - 1) ∧
    (pySplitNl c.content).length = c.end_line - c.start_line + 1 := by
  obtain ⟨h1, h2, h3, h4, _h5, _⟩ := h
  have hlen : (((pySplitNl content).take c.end_line).drop (c.start_line - 1)).length
      = c.end_line - c.start_line + 1 := by
    rw [List.length_drop, List.length_take]
    omega
  have hne : ((pySplitNl content).take c.end_line).drop (c.start_line - 1) ≠ [] := by
    intro h0
    rw [h0] at hlen
    simp at hlen
  have hmem : ∀ l ∈ ((pySplitNl content).take c.end_line).drop (c.start_line - 1),
      '\n' ∉ l.data := by
    intro l hl
    exact not_newline_mem_pySplitNl content l (List.mem_of_mem_take (List.mem_of_mem_drop hl))
  rw [h4, pySplitNl_joinNl _ hne hmem]
  exact ⟨rfl, hlen⟩

/-- C1: Chunker round-trip.  Every chunk's `content` is the newline-join of
the source's lines `start_line..end_line`, and concatenating the chunks'
line lists after removing the overlap-duplicated leading lines of each
non-first chunk (`dedupConcat`) reconstructs the original line sequence. -/
theorem chunk_by_lines_roundtrip (maxSize overlap : Nat) (tok : String → Nat)
    (content fp owner repo : String) :
    (∀ c ∈ CodeChunker.chunk_by_lines maxSize overlap tok content fp owner repo,
      c.content = joinNl (((pySplitNl content).take c.end_line).drop (c.start_line - 1))) ∧
    dedupConcat (CodeChunker.chunk_by_lines maxSize overlap tok content fp owner repo)
      = pySplitNl content := by
  obtain ⟨hall, hdedup, _⟩ := chunk_by_lines_spec maxSize overlap tok content fp owner repo
  exact ⟨fun c hc => (hall c hc).2.2.2.1, hdedup⟩

theorem chunk_by_lines_roundtrip_witness :
    (⟨"ab\ncd", "f", 1, 2, "o", "r"⟩ : Chunk).content
      = joinNl (((pySplitNl "ab\ncd").take 2).drop (1 - 1)) ∧
    dedupConcat (CodeChunker.chunk_by_lines 100 0 charCount "ab\ncd" "f" "o" "r")
      = pySplitNl "ab\ncd" :=
  ⟨(chunk_by_lines_roundtrip 100 0 charCount "ab\ncd" "f" "o" "r").1
      ⟨"ab\ncd", "f", 1, 2, "o", "r"⟩ (by decide),
   (chunk_by_lines_roundtrip 100 0 charCount "ab\ncd" "f" "o" "r").2⟩

/-- C10: Chunk line-range invariant.  Every chunk satisfies
`1 ≤ start_line ≤ end_line ≤ total line count`, and the number of
newline-separated lines of its `content` is `end_line − start_line + 1`. -/
theorem chunk_by_lines_line_ranges (maxSize overlap : Nat) (tok : String → Nat)
    (content fp owner repo : String) :
    ∀ c ∈ CodeChunker.chunk_by_lines maxSize overlap tok content fp owner repo,
      1 ≤ c.start_line ∧ c.start_line ≤ c.end_line ∧
      c.end_line ≤ (pySplitNl content).length ∧
      (pySplitNl c.content).length = c.end_line - c.start_line + 1 := by
  intro c hc
  have hg := (chunk_by_lines_spec maxSize overlap tok content fp owner repo).1 c hc
  exact ⟨hg.1, hg.2.1, hg.2.2.1,
    (goodChunk_content_lines content tok maxSize overlap fp owner repo c hg).2⟩

theorem chunk_by_lines_line_ranges_witness :
    1 ≤ (1 : Nat) ∧ 1 ≤ 3 ∧ 3 ≤ (pySplitNl "x\ny\nz").length ∧
    (pySplitNl ("x\ny\nz" : String)).length = 3 - 1 + 1 := by
  have h := chunk_by_lines_line_ranges 100 0 charCount "x\ny\nz" "f" "o" "r"
    ⟨"x\ny\nz", "f", 1, 3, "o", "r"⟩ (by decide)
  exact h

/-- C2 as stated is false: with overlap, a chunk seeded from carried
overlap lines can exceed the token budget while having more than one
line.  With `max_chunk_size = 4`, `chunk_overlap = 1` and the per-character
tokenizer, the input `"aa\nbb\ncc"` produces the two-line chunk
`"aa\nbb"` whose per-line-summed token count is `6 > 4`. -/
theorem chunk_by_lines_budget_counterexample :
    ∃ c ∈ CodeChunker.chunk_by_lines 4 1 charCount "aa\nbb\ncc" "f" "o" "r",
      4 < tokenSum charCount (pySplitNl c.content) ∧
      (pySplitNl c.content).length ≠ 1 := by
  refine ⟨⟨"aa\nbb", "f", 1, 2, "o", "r"⟩, by decide, by decide, by decide⟩

/-- C2 (amended): every chunk's per-line-summed token count is at most
`max_chunk_size`, except chunks that consist of the carried overlap lines
plus a single fresh line — at most `chunk_overlap + 1` lines; in
particular, with `chunk_overlap = 0` an over-budget chunk is a single
line placed alone. -/
theorem chunk_by_lines_token_budget (maxSize overlap : Nat) (tok : String → Nat)
    (content fp owner repo : String) :
    (∀ c ∈ CodeChunker.chunk_by_lines maxSize overlap tok content fp owner repo,
      tokenSum tok (pySplitNl c.content) ≤ maxSize ∨
      (pySplitNl c.content).length ≤ overlap + 1) ∧
    (overlap = 0 →
      ∀ c ∈ CodeChunker.chunk_by_lines maxSize overlap tok content fp owner repo,
        tokenSum tok (pySplitNl c.content) ≤ maxSize ∨
        (pySplitNl c.content).length = 1) := by
  have hmain : ∀ c ∈ CodeChunker.chunk_by_lines maxSize overlap tok content fp owner repo,
      tokenSum tok (pySplitNl c.content) ≤ maxSize ∨
      (pySplitNl c.content).length ≤ overlap + 1 := by
    intro c hc
    have hg := (chunk_by_lines_spec maxSize overlap tok content fp owner repo).1 c hc
    have hcl := goodChunk_content_lines content tok maxSize overlap fp owner repo c hg
    rw [hcl.1]
    exact hg.2.2.2.2.1
  refine ⟨hmain, fun hov c hc => ?_⟩
  rcases hmain c hc with h | h
  · exact Or.inl h
  · right
    have hg := (chunk_by_lines_spec maxSize overlap tok content fp owner repo).1 c hc
    have hcl := goodChunk_content_lines content tok maxSize overlap fp owner repo c hg
    subst hov
    omega

theorem chunk_by_lines_token_budget_witness :
    (tokenSum charCount (pySplitNl ("aa\nbb" : String)) ≤ 4 ∨
      (pySplitNl ("aa\nbb" : String)).length ≤ 1 + 1) ∧
    (tokenSum charCount (pySplitNl ("pq\nrs" : String)) ≤ 9 ∨
      (pySplitNl ("pq\nrs" : String)).length = 1) :=
  ⟨(chunk_by_lines_token_budget 4 1 charCount "aa\nbb\ncc" "f" "o" "r").1
      ⟨"aa\nbb", "f", 1, 2, "o", "r"⟩ (by decide),
   (chunk_by_lines_token_budget 9 0 charCount "pq\nrs" "f" "o" "r").2 rfl
      ⟨"pq\nrs", "f", 1, 2, "o", "r"⟩ (by decide)⟩

/-- C9: chunker totality.  `chunk_by_lines` always returns a non-empty
chunk list, and the empty string yields exactly one chunk with empty
content spanning lines 1 to 1. -/
theorem chunk_by_lines_total (maxSize overlap : Nat) (tok : String → Nat)
    (content fp owner repo : String) :
    CodeChunker.chunk_by_lines maxSize overlap tok content fp owner repo ≠ [] ∧
    CodeChunker.chunk_by_lines maxSize overlap tok "" fp owner repo
      = [⟨"", fp, 1, 1, owner, repo⟩] := by
  refine ⟨(chunk_by_lines_spec maxSize overlap tok content fp owner repo).2.2, ?_⟩
  have hsplit : pySplitNl "" = [""] := rfl
  unfold CodeChunker.chunk_by_lines
  rw [hsplit]
  rw [chunkLoop]
  simp only []
  rw [if_neg (by simp)]
  rw [chunkLoop]
  rw [if_neg (by simp)]
  rfl

/-! ## Collection-name sanitization (`app/agent.py`, `sanitize_collection_name`)

Python's `str.isalnum` is modelled by `Char.isAlphanum` (ASCII letters and
digits).  `str.strip('_')` is modelled at the character level by
`stripUnderscoreChars`.
-/

/-- Characters kept by the filter step: `c.isalnum() or c == '_'`. -/
def keepAlnumUnd (c : Char) : Bool := c.isAlphanum || c == '_'

/-- Python `s.strip('_')`. -/
def stripUnderscoreChars (l : List Char) : List Char :=
  ((l.dropWhile (fun c => c == '_')).reverse.dropWhile (fun c => c == '_')).reverse

/-- Truncation step: `if len(sanitized) > 60: sanitized = sanitized[:60]`. -/
def sanitizeStep4 (s3 : List Char) : List Char :=
  if 60 < s3.length then s3.take 60 else s3

/-- Minimum-length step: `if len(sanitized) < 3: sanitized += '_collection'`. -/
def sanitizeStep5 (s4 : List Char) : List Char :=
  if s4.length < 3 then s4 ++ "_collection".data else s4

/-- Trailing-underscore fix: `if sanitized.endswith('_'): sanitized = sanitized[:-1] + 'x'`. -/
def sanitizeStep6 (s5 : List Char) : List Char :=
  if s5.getLast? = some '_' then s5.dropLast ++ ['x'] else s5

def sanitizeFinish (s2 : List Char) : List Char :=
  sanitizeStep6 (sanitizeStep5 (sanitizeStep4 (stripUnderscoreChars s2)))

/-- `sanitize_collection_name(owner, repo)` from `app/agent.py`:
`f"{owner}_{repo}"`, replace `-` by `_`, drop non-alphanumeric
non-underscore characters, strip `_` from both ends, truncate to 60,
pad short names with `_collection`, and repair a trailing `_`. -/
def sanitize_collection_name (owner repo : String) : String :=
  let raw := owner ++ "_" ++ repo
  let s1 := raw.data.map (fun c => if c = '-' then '_' else c)
  let s2 := s1.filter keepAlnumUnd
  String.mk (sanitizeFinish s2)

example : sanitize_collection_name "foo" "bar" = "foo_bar" := by decide
example : sanitize_collection_name "a" "b" = "a_b" := by decide
example : sanitize_collection_name "a--b" "c.d" = "a__b_cd" := by decide
example : sanitize_collection_name "-" "-" = "_collection" := by decide

theorem stripUnderscoreChars_mem (l : List Char) :
    ∀ c ∈ stripUnderscoreChars l, c ∈ l := by
  intro c hc
  unfold stripUnderscoreChars at hc
  rw [List.mem_reverse] at hc
  have h1 := (List.dropWhile_sublist (fun c => c == '_')).mem hc
  rw [List.mem_reverse] at h1
  exact (List.dropWhile_sublist (fun c => c == '_')).mem h1

/-- The head of a stripped list is never an underscore. -/
theorem stripUnderscoreChars_head (l : List Char) :
    stripUnderscoreChars l = [] ∨
    ∃ c t, stripUnderscoreChars l = c :: t ∧ (c == '_') = false := by
  cases hres : stripUnderscoreChars l with
  | nil => exact Or.inl rfl
  | cons c t =>
    right
    refine ⟨c, t, rfl, ?_⟩
    have hsplitd := List.takeWhile_append_dropWhile (fun c => c == '_')
      (l.dropWhile (fun c => c == '_')).reverse
    have hd := congrArg List.reverse hsplitd
    rw [List.reverse_append, List.reverse_reverse] at hd
    unfold stripUnderscoreChars at hres
    rw [hres] at hd
    have hh := List.head?_dropWhile_not (fun c => c == '_') l
    rw [← hd] at hh
    simpa using hh

theorem sanitizeStep4_length (s3 : List Char) : (sanitizeStep4 s3).length ≤ 60 := by
  unfold sanitizeStep4
  split
  · simp
  · omega

theorem sanitizeStep4_mem (s3 : List Char) : ∀ c ∈ sanitizeStep4 s3, c ∈ s3 := by
  unfold sanitizeStep4
  split
  · exact fun c hc => List.mem_of_mem_take hc
  · exact fun c hc => hc

theorem sanitizeStep4_head (s3 : List Char) : (sanitizeStep4 s3).head? = s3.head? := by
  unfold sanitizeStep4
  split
  · cases s3 with
    | nil => simp
    | cons a t =>
      rw [show (60 : Nat) = 59 + 1 from rfl, List.take_succ_cons]
      rfl
  · rfl

theorem sanitizeStep5_length (s4 : List Char) (h : s4.length ≤ 60) :
    3 ≤ (sanitizeStep5 s4).length ∧ (sanitizeStep5 s4).length ≤ 60 := by
  unfold sanitizeStep5
  have h11 : ("_collection".data).length = 11 := by decide
  split
  · rw [List.length_append, h11]
    omega
  · omega

theorem sanitizeStep5_mem (s4 : List Char) :
    ∀ c ∈ sanitizeStep5 s4, c ∈ s4 ∨ c ∈ "_collection".data := by
  unfold sanitizeStep5
  split
  · intro c hc
    exact List.mem_append.1 hc
  · exact fun c hc => Or.inl hc

theorem sanitizeStep5_head (s4 : List Char) (h : s4 ≠ []) :
    (sanitizeStep5 s4).head? = s4.head? := by
  unfold sanitizeStep5
  split
  · cases s4 with
    | nil => exact absurd rfl h
    | cons a t => rfl
  · rfl

theorem sanitizeStep5_nil : sanitizeStep5 [] = "_collection".data := by decide

theorem head?_dropLast_append (l : List Char) (x : Char) (h : 2 ≤ l.length) :
    (l.dropLast ++ [x]).head? = l.head? := by
  match l, h with
  | a :: b :: t, _ => simp

theorem sanitizeStep6_length (s5 : List Char) (h : 1 ≤ s5.length) :
    (sanitizeStep6 s5).length = s5.length := by
  unfold sanitizeStep6
  split
  · rw [List.length_append, List.length_dropLast]
    simp
    omega
  · rfl

theorem sanitizeStep6_mem (s5 : List Char) :
    ∀ c ∈ sanitizeStep6 s5, c ∈ s5 ∨ c = 'x' := by
  unfold sanitizeStep6
  split
  · intro c hc
    rcases List.mem_append.1 hc with h | h
    · exact Or.inl ((List.dropLast_sublist s5).mem h)
    · exact Or.inr (List.mem_singleton.1 h)
  · exact fun c hc => Or.inl hc

theorem sanitizeStep6_getLast (s5 : List Char) :
    (sanitizeStep6 s5).getLast? ≠ some '_' := by
  unfold sanitizeStep6
  split
  · rw [List.getLast?_concat]
    simp
  · rename_i h
    exact h

theorem sanitizeStep6_head (s5 : List Char) (h : 2 ≤ s5.length) :
    (sanitizeStep6 s5).head? = s5.head? := by
  unfold sanitizeStep6
  split
  · exact head?_dropLast_append s5 'x' h
  · rfl

theorem sanitizeFinish_props (s2 : List Char) (h2 : ∀ c ∈ s2, keepAlnumUnd c = true) :
    3 ≤ (sanitizeFinish s2).length ∧ (sanitizeFinish s2).length ≤ 60 ∧
    (∀ c ∈ sanitizeFinish s2, keepAlnumUnd c = true) ∧
    (sanitizeFinish s2).getLast? ≠ some '_' ∧
    ((sanitizeFinish s2).head? = some '_' → sanitizeFinish s2 = "_collection".data) := by
  unfold sanitizeFinish
  have h4len := sanitizeStep4_length (stripUnderscoreChars s2)
  have h5 := sanitizeStep5_length _ h4len
  have h6len := sanitizeStep6_length (sanitizeStep5 (sanitizeStep4 (stripUnderscoreChars s2)))
    (by omega)
  refine ⟨by omega, by omega, ?_, sanitizeStep6_getLast _, ?_⟩
  · intro c hc
    rcases sanitizeStep6_mem _ c hc with h | h
    · rcases sanitizeStep5_mem _ c h with h' | h'
      · exact h2 c (stripUnderscoreChars_mem s2 c (sanitizeStep4_mem _ c h'))
      · have hcoll : ∀ x ∈ "_collection".data, keepAlnumUnd x = true := by decide
        exact hcoll c h'
    · subst h
      decide
  · intro hhead
    rcases stripUnderscoreChars_head s2 with h3nil | ⟨c, t, h3cons, hcund⟩
    · rw [h3nil]
      decide
    · exfalso
      have hs4 : (sanitizeStep4 (stripUnderscoreChars s2)).head? = some c := by
        rw [sanitizeStep4_head, h3cons]
        rfl
      have hs4ne : sanitizeStep4 (stripUnderscoreChars s2) ≠ [] := by
        intro h0
        rw [h0] at hs4
        simp at hs4
      have hs5 : (sanitizeStep5 (sanitizeStep4 (stripUnderscoreChars s2))).head? = some c := by
        rw [sanitizeStep5_head _ hs4ne]
        exact hs4
      have hs6 : (sanitizeStep6 (sanitizeStep5 (sanitizeStep4
          (stripUnderscoreChars s2)))).head? = some c := by
        rw [sanitizeStep6_head _ (by omega)]
        exact hs5
      rw [hs6] at hhead
      have : c = '_' := by
        injection hhead
      subst this
      simp at hcund

/-- The `let` chain of `sanitize_collection_name` expanded into its
pipeline form. -/
theorem sanitize_collection_name_eq (owner repo : String) :
    sanitize_collection_name owner repo
      = String.mk (sanitizeFinish
          (((owner ++ "_" ++ repo).data.map (fun c => if c = '-' then '_' else c)).filter
            keepAlnumUnd)) := rfl

/-- C4 as stated is false: `sanitize_collection_name "-" "-"` returns the
literal `"_collection"`, which starts with an underscore, contradicting
the claim that the result never starts with an underscore. -/
theorem sanitize_collection_name_counterexample :
    sanitize_collection_name "-" "-" = "_collection" ∧
    ("_collection".data.head? = some '_') := by
  constructor <;> decide

set_option maxHeartbeats 1600000 in
/-- C4 (amended): `sanitize_collection_name` returns a string of length in
[3, 60] containing only alphanumerics and underscores that never ends with
an underscore, and never starts with one either, except that when the
stripped name is empty the result is the literal `"_collection"` (which
starts with an underscore); the three concrete examples hold. -/
theorem sanitize_collection_name_postconditions :
    (∀ owner repo : String,
      3 ≤ (sanitize_collection_name owner repo).length ∧
      (sanitize_collection_name owner repo).length ≤ 60 ∧
      (∀ c ∈ (sanitize_collection_name owner repo).data, c.isAlphanum ∨ c = '_') ∧
      (sanitize_collection_name owner repo).data.getLast? ≠ some '_' ∧
      ((sanitize_collection_name owner repo).data.head? = some '_' →
        sanitize_collection_name owner repo = "_collection")) ∧
    sanitize_collection_name "foo" "bar" = "foo_bar" ∧
    sanitize_collection_name "a" "b" = "a_b" ∧
    sanitize_collection_name "a--b" "c.d" = "a__b_cd" := by
  refine ⟨?_, by decide, by decide, by decide⟩
  intro owner repo
  obtain ⟨hf1, hf2, hf3, hf4, hf5⟩ := sanitizeFinish_props
    (((owner ++ "_" ++ repo).data.map (fun c => if c = '-' then '_' else c)).filter keepAlnumUnd)
    (fun c hc => (List.mem_filter.1 hc).2)
  rw [sanitize_collection_name_eq]
  refine ⟨hf1, hf2, ?_, hf4, ?_⟩
  · intro c hc
    have hk := hf3 c hc
    simpa [keepAlnumUnd] using hk
  · intro hh
    have hfc := hf5 hh
    rw [hfc]

theorem sanitize_collection_name_postconditions_witness :
    sanitize_collection_name "-" "-" = "_collection" ∧
    3 ≤ (sanitize_collection_name "a" "b").length :=
  ⟨(sanitize_collection_name_postconditions.1 "-" "-").2.2.2.2 (by decide),
   (sanitize_collection_name_postconditions.1 "a" "b").1⟩

/-! ## URL validation (`app/agent.py`, `validate_url_node`)

`validate_url_node` runs `re.match(r"^https://github.com/([^/]+)/([^/]+)", url)`
and returns a state update: on a match, `valid=True` with the two captured
groups as `owner`/`repo` and an empty error; otherwise `valid=False` with
the fixed error message.  The regex semantics (anchored at the start only,
each `[^/]+` a maximal nonempty run of non-slash characters) is spelled out
by `matchGithubUrl`.
-/

structure UrlResult where
  valid : Bool
  owner : Option String
  repo : Option String
  error : String
deriving DecidableEq, Repr

def githubUrlHead : List Char := "https://github.com/".data

/-- `re.match(r"^https://github.com/([^/]+)/([^/]+)", url)`: the literal
head, a maximal nonempty run of non-slash characters (group 1), a slash
(the first character after group 1, which is a slash whenever the
`dropWhile` below is nonempty), and another maximal nonempty run of
non-slash characters (group 2); anything after group 2 is ignored. -/
def matchGithubUrl (url : String) : Option (String × String) :=
  if url.data.take githubUrlHead.length = githubUrlHead ∧
      (url.data.drop githubUrlHead.length).takeWhile (fun c => c != '/') ≠ [] ∧
      (url.data.drop githubUrlHead.length).dropWhile (fun c => c != '/') ≠ [] ∧
      (((url.data.drop githubUrlHead.length).dropWhile (fun c => c != '/')).drop 1).takeWhile
        (fun c => c != '/') ≠ [] then
    some (String.mk ((url.data.drop githubUrlHead.length).takeWhile (fun c => c != '/')),
          String.mk ((((url.data.drop githubUrlHead.length).dropWhile
            (fun c => c != '/')).drop 1).takeWhile (fun c => c != '/')))
  else none

/-- `validate_url_node` from `app/agent.py`. -/
def validate_url_node (url : String) : UrlResult :=
  match matchGithubUrl url with
  | some (o, r) => { valid := true, owner := some o, repo := some r, error := "" }
  | none => { valid := false, owner := none, repo := none, error := "Invalid GitHub URL" }

example : validate_url_node "https://github.com/BenLus/Github_Repo_Chatbot"
    = ⟨true, some "BenLus", some "Github_Repo_Chatbot", ""⟩ := by decide
example : validate_url_node "https://github.com/a/b/tree/main?q=1"
    = ⟨true, some "a", some "b", ""⟩ := by decide
example : validate_url_node "https://github.com/a/b.git"
    = ⟨true, some "a", some "b.git", ""⟩ := by decide
example : validate_url_node "https://github.com/onlyowner"
    = ⟨false, none, none, "Invalid GitHub URL"⟩ := by decide
example : validate_url_node "http://github.com/a/b"
    = ⟨false, none, none, "Invalid GitHub URL"⟩ := by decide
example : validate_url_node "https://github.com//b"
    = ⟨false, none, none, "Invalid GitHub URL"⟩ := by decide

theorem takeWhile_append_all {α : Type} (p : α → Bool) (l₁ l₂ : List α)
    (h : ∀ a ∈ l₁, p a = true) :
    (l₁ ++ l₂).takeWhile p = l₁ ++ l₂.takeWhile p := by
  induction l₁ with
  | nil => simp
  | cons a t ih =>
    rw [List.cons_append, List.takeWhile_cons, if_pos (h a (List.mem_cons_self a t)),
      ih (fun x hx => h x (List.mem_cons_of_mem a hx)), List.cons_append]

theorem dropWhile_append_all {α : Type} (p : α → Bool) (l₁ l₂ : List α)
    (h : ∀ a ∈ l₁, p a = true) :
    (l₁ ++ l₂).dropWhile p = l₂.dropWhile p := by
  induction l₁ with
  | nil => simp
  | cons a t ih =>
    rw [List.cons_append, List.dropWhile_cons, if_pos (h a (List.mem_cons_self a t)),
      ih (fun x hx => h x (List.mem_cons_of_mem a hx))]

theorem data_eq_nil (s : String) : s.data = [] ↔ s = "" := by
  constructor
  · intro h
    apply String.ext
    rw [h]
  · intro h
    rw [h]

/-- C5: URL validation.  Every URL of the form
`https://github.com/{owner}/{repo}` followed by an arbitrary trailing path
(empty, or starting with a slash — which also covers trailing `.git`
segments and query strings attached to deeper path segments) is accepted
with `owner` and `repo` the first two path segments; every URL that has no
such decomposition is rejected with the error `"Invalid GitHub URL"`. -/
theorem validate_url_node_spec :
    (∀ o r rest : String,
      o ≠ "" → (∀ c ∈ o.data, c ≠ '/') →
      r ≠ "" → (∀ c ∈ r.data, c ≠ '/') →
      (rest = "" ∨ rest.data.head? = some '/') →
      validate_url_node ("https://github.com/" ++ o ++ "/" ++ r ++ rest)
        = { valid := true, owner := some o, repo := some r, error := "" }) ∧
    (∀ url : String,
      (¬ ∃ o r rest : String,
        url = "https://github.com/" ++ o ++ "/" ++ r ++ rest ∧
        o ≠ "" ∧ (∀ c ∈ o.data, c ≠ '/') ∧ r ≠ "" ∧ (∀ c ∈ r.data, c ≠ '/')) →
      validate_url_node url
        = { valid := false, owner := none, repo := none, error := "Invalid GitHub URL" }) := by
  constructor
  · intro o r rest ho hosl hr hrsl hrest
    have hosl' : ∀ c ∈ o.data, (c != '/') = true := by
      intro c hc
      simpa using hosl c hc
    have hrsl' : ∀ c ∈ r.data, (c != '/') = true := by
      intro c hc
      simpa using hrsl c hc
    have hone : o.data ≠ [] := fun h => ho ((data_eq_nil o).1 h)
    have hrne : r.data ≠ [] := fun h => hr ((data_eq_nil r).1 h)
    have hdata : ("https://github.com/" ++ o ++ "/" ++ r ++ rest).data
        = githubUrlHead ++ (o.data ++ '/' :: (r.data ++ rest.data)) := by
      show (((("https://github.com/".data ++ o.data) ++ "/".data) ++ r.data) ++ rest.data)
          = githubUrlHead ++ (o.data ++ '/' :: (r.data ++ rest.data))
      simp [githubUrlHead, List.append_assoc]
    have hotw : (o.data ++ '/' :: (r.data ++ rest.data)).takeWhile (fun c => c != '/')
        = o.data := by
      rw [takeWhile_append_all _ _ _ hosl', List.takeWhile_cons]
      simp
    have hodw : (o.data ++ '/' :: (r.data ++ rest.data)).dropWhile (fun c => c != '/')
        = '/' :: (r.data ++ rest.data) := by
      rw [dropWhile_append_all _ _ _ hosl', List.dropWhile_cons]
      simp
    have hresttw : rest.data.takeWhile (fun c => c != '/') = [] := by
      rcases hrest with h | h
      · rw [h]
        rfl
      · cases hd : rest.data with
        | nil => rfl
        | cons c t =>
          rw [hd] at h
          have hcq : c = '/' := by simpa using h
          subst hcq
          rw [List.takeWhile_cons]
          simp
    have hrtw : (r.data ++ rest.data).takeWhile (fun c => c != '/') = r.data := by
      rw [takeWhile_append_all _ _ _ hrsl', hresttw, List.append_nil]
    have hmatch : matchGithubUrl ("https://github.com/" ++ o ++ "/" ++ r ++ rest)
        = some (o, r) := by
      unfold matchGithubUrl
      rw [hdata, List.take_left, List.drop_left, hotw, hodw]
      rw [if_pos ⟨rfl, hone, by simp, by
        show ((('/' :: (r.data ++ rest.data)).drop 1).takeWhile (fun c => c != '/')) ≠ []
        rw [List.drop_one, List.tail_cons, hrtw]
        exact hrne⟩]
      rw [show (('/' :: (r.data ++ rest.data)).drop 1).takeWhile (fun c => c != '/')
          = r.data by rw [List.drop_one, List.tail_cons, hrtw]]
    unfold validate_url_node
    rw [hmatch]
  · intro url hno
    cases hm : matchGithubUrl url with
    | none =>
      unfold validate_url_node
      rw [hm]
    | some pr =>
      exfalso
      unfold matchGithubUrl at hm
      by_cases hcond : url.data.take githubUrlHead.length = githubUrlHead ∧
          (url.data.drop githubUrlHead.length).takeWhile (fun c => c != '/') ≠ [] ∧
          (url.data.drop githubUrlHead.length).dropWhile (fun c => c != '/') ≠ [] ∧
          (((url.data.drop githubUrlHead.length).dropWhile (fun c => c != '/')).drop 1).takeWhile
            (fun c => c != '/') ≠ [] 
      · apply hno
        obtain ⟨hpre, htw, hdwne, htw2⟩ := hcond
        have hurl : url.data = githubUrlHead ++ url.data.drop githubUrlHead.length := by
          conv_lhs => rw [← List.take_append_drop githubUrlHead.length url.data]
          rw [hpre]
        cases hdw : (url.data.drop githubUrlHead.length).dropWhile (fun c => c != '/') with
        | nil => exact absurd hdw hdwne
        | cons c t =>
          have hc : c = '/' := by
            have hh := List.head?_dropWhile_not (fun c => c != '/')
              (url.data.drop githubUrlHead.length)
            rw [hdw] at hh
            simpa using hh
          subst hc
          rw [hdw, List.drop_one, List.tail_cons] at htw2
          refine ⟨String.mk ((url.data.drop githubUrlHead.length).takeWhile (fun c => c != '/')),
                  String.mk (t.takeWhile (fun c => c != '/')),
                  String.mk (t.dropWhile (fun c => c != '/')), ?_, ?_, ?_, ?_, ?_⟩
          · apply String.ext
            have hrhs : ("https://github.com/"
                ++ String.mk ((url.data.drop githubUrlHead.length).takeWhile (fun c => c != '/'))
                ++ "/" ++ String.mk (t.takeWhile (fun c => c != '/'))
                ++ String.mk (t.dropWhile (fun c => c != '/'))).data
                = githubUrlHead
                  ++ ((url.data.drop githubUrlHead.length).takeWhile (fun c => c != '/')
                    ++ '/' :: (t.takeWhile (fun c => c != '/')
                      ++ t.dropWhile (fun c => c != '/'))) := by
              show (((("https://github.com/".data
                  ++ (url.data.drop githubUrlHead.length).takeWhile (fun c => c != '/'))
                  ++ "/".data) ++ t.takeWhile (fun c => c != '/'))
                  ++ t.dropWhile (fun c => c != '/'))
                = githubUrlHead
                  ++ ((url.data.drop githubUrlHead.length).takeWhile (fun c => c != '/')
                    ++ '/' :: (t.takeWhile (fun c => c != '/')
                      ++ t.dropWhile (fun c => c != '/')))
              simp [githubUrlHead, List.append_assoc]
            have hsplit2 : t.takeWhile (fun c => c != '/') ++ t.dropWhile (fun c => c != '/')
                = t := List.takeWhile_append_dropWhile _ _
            have hsplit1 : (url.data.drop githubUrlHead.length).takeWhile (fun c => c != '/')
                ++ '/' :: t = url.data.drop githubUrlHead.length := by
              conv_rhs => rw [← List.takeWhile_append_dropWhile (fun c => c != '/')
                (url.data.drop githubUrlHead.length), hdw]
            rw [hrhs, hsplit2, hsplit1, ← hurl]
          · intro h
            apply htw
            simpa using congrArg String.data h
          · intro ch hch
            have := List.mem_takeWhile_imp hch
            simpa using this
          · intro h
            apply htw2
            simpa using congrArg String.data h
          · intro ch hch
            have := List.mem_takeWhile_imp hch
            simpa using this
      · rw [if_neg hcond] at hm
        exact absurd hm (by simp)

theorem validate_url_node_spec_witness :
    validate_url_node "https://github.com/BenLus/Github_Repo_Chatbot/tree/main"
      = { valid := true, owner := some "BenLus", repo := some "Github_Repo_Chatbot",
          error := "" } ∧
    validate_url_node "nope"
      = { valid := false, owner := none, repo := none, error := "Invalid GitHub URL" } := by
  constructor
  · have h := validate_url_node_spec.1 "BenLus" "Github_Repo_Chatbot" "/tree/main"
      (by decide) (by decide) (by decide) (by decide) (Or.inr (by decide))
    convert h using 2
  · refine validate_url_node_spec.2 "nope" ?_
    rintro ⟨o, r, rest, heq, -, -, -, -⟩
    have hlen := congrArg String.length heq
    rw [String.length_append, String.length_append, String.length_append,
      String.length_append] at hlen
    have h1 : ("nope" : String).length = 4 := rfl
    have h2 : ("https://github.com/" : String).length = 19 := rfl
    have h3 : ("/" : String).length = 1 := rfl
    rw [h1, h2, h3] at hlen
    omega

/-! ## The embedder (`app/embedder.py`, `EmbeddingGenerator`)

Per the claim, the embedding API is an oracle returning one vector per
input in input order, i.e. a function `f : String → E` applied elementwise
to the batch; `generate_embedding` issues one single-text call. -/

/-- `EmbeddingGenerator.generate_embedding(text)`. -/
def generate_embedding {E : Type} (f : String → E) (text : String) : E := f text

/-- The `for i in range(0, len(texts), batch_size)` loop of
`generate_batch_embeddings`: each iteration embeds the slice
`texts[i:i+batch_size]` and extends the accumulator.  For `batchSize ≥ 1`
the recursion consumes exactly that slice; Python raises `ValueError` for
`batch_size = 0`, a case the claims exclude. -/
def batchLoop {E : Type} (f : String → E) (batchSize : Nat) : List String → List E
  | [] => []
  | t :: rest =>
    ((t :: rest).take batchSize).map f ++ batchLoop f batchSize (rest.drop (batchSize - 1))
termination_by l => l.length
decreasing_by
  simp only [List.length_drop, List.length_cons]
  omega

/-- `EmbeddingGenerator.generate_batch_embeddings(texts, batch_size)`. -/
def generate_batch_embeddings {E : Type} (f : String → E) (batchSize : Nat)
    (texts : List String) : List E :=
  batchLoop f batchSize texts

/-- The consecutive groups of at most `batchSize` texts that the loop
submits, one API call per group. -/
def batchGroups (batchSize : Nat) : List String → List (List String)
  | [] => []
  | t :: rest =>
    (t :: rest).take batchSize :: batchGroups batchSize (rest.drop (batchSize - 1))
termination_by l => l.length
decreasing_by
  simp only [List.length_drop, List.length_cons]
  omega

theorem batchLoop_eq_map {E : Type} (f : String → E) (batchSize : Nat)
    (hbs : 1 ≤ batchSize) :
    ∀ (n : Nat) (l : List String), l.length ≤ n → batchLoop f batchSize l = l.map f := by
  intro n
  induction n with
  | zero =>
    intro l hl
    have : l = [] := List.length_eq_zero.1 (Nat.le_zero.1 hl)
    rw [this, batchLoop]
    rfl
  | succ n ih =>
    intro l hl
    cases l with
    | nil =>
      rw [batchLoop]
      rfl
    | cons t rest =>
      rw [batchLoop, ih (rest.drop (batchSize - 1)) (by
        rw [List.length_drop]
        simp at hl
        omega)]
      obtain ⟨k, hk⟩ : ∃ k, batchSize = k + 1 := ⟨batchSize - 1, by omega⟩
      rw [hk, List.take_succ_cons, List.map_cons]
      simp only [Nat.add_sub_cancel]
      rw [List.cons_append, ← List.map_append, List.take_append_drop, List.map_cons]

theorem batchGroups_flatten {E : Type} (f : String → E) (batchSize : Nat)
    (hbs : 1 ≤ batchSize) :
    ∀ (n : Nat) (l : List String), l.length ≤ n →
      (batchGroups batchSize l).flatten = l ∧
      (∀ g ∈ batchGroups batchSize l, g.length ≤ batchSize) ∧
      batchLoop f batchSize l = ((batchGroups batchSize l).map (List.map f)).flatten := by
  intro n
  induction n with
  | zero =>
    intro l hl
    have : l = [] := List.length_eq_zero.1 (Nat.le_zero.1 hl)
    rw [this, batchGroups, batchLoop]
    exact ⟨rfl, by simp, rfl⟩
  | succ n ih =>
    intro l hl
    cases l with
    | nil =>
      rw [batchGroups, batchLoop]
      exact ⟨rfl, by simp, rfl⟩
    | cons t rest =>
      have hrec := ih (rest.drop (batchSize - 1)) (by
        rw [List.length_drop]
        simp at hl
        omega)
      rw [batchGroups, batchLoop]
      refine ⟨?_, ?_, ?_⟩
      · rw [List.flatten_cons, hrec.1]
        obtain ⟨k, hk⟩ : ∃ k, batchSize = k + 1 := ⟨batchSize - 1, by omega⟩
        rw [hk, List.take_succ_cons]
        simp only [Nat.add_sub_cancel]
        rw [List.cons_append, List.take_append_drop]
      · intro g hg
        rcases List.mem_cons.1 hg with h | h
        · rw [h]
          exact List.length_take_le batchSize (t :: rest)
        · exact hrec.2.1 g h
      · rw [List.map_cons, List.flatten_cons, hrec.2.2]

/-- C6: Batch-embedding order invariant.  With the embedding API modelled
as an order-preserving oracle, `generate_batch_embeddings` partitions the
texts into consecutive groups of at most `batch_size` (one API call per
group, results concatenated) and equals the elementwise map of
`generate_embedding`: element `i` of the result is the embedding of
`texts[i]`. -/
theorem generate_batch_embeddings_order {E : Type} (f : String → E) (batchSize : Nat)
    (texts : List String) (hbs : 1 ≤ batchSize) :
    generate_batch_embeddings f batchSize texts = texts.map (generate_embedding f) ∧
    (generate_batch_embeddings f batchSize texts).length = texts.length ∧
    (∀ i : Nat, (generate_batch_embeddings f batchSize texts).get? i
      = (texts.get? i).map (generate_embedding f)) ∧
    (batchGroups batchSize texts).flatten = texts ∧
    (∀ g ∈ batchGroups batchSize texts, g.length ≤ batchSize) ∧
    generate_batch_embeddings f batchSize texts
      = ((batchGroups batchSize texts).map (List.map f)).flatten := by
  have hmap : generate_batch_embeddings f batchSize texts = texts.map (generate_embedding f) :=
    batchLoop_eq_map f batchSize hbs texts.length texts (le_refl _)
  have hgr := batchGroups_flatten f batchSize hbs texts.length texts (le_refl _)
  refine ⟨hmap, by rw [hmap, List.length_map], ?_, hgr.1, hgr.2.1, hgr.2.2⟩
  intro i
  rw [hmap]
  simp [List.get?_eq_getElem?, List.getElem?_map]

theorem generate_batch_embeddings_order_witness :
    generate_batch_embeddings String.length 2 ["a", "bb", "ccc"]
      = ["a", "bb", "ccc"].map (generate_embedding String.length) ∧
    (batchGroups 2 ["a", "bb", "ccc"]).flatten = ["a", "bb", "ccc"] := by
  have h := generate_batch_embeddings_order String.length 2 ["a", "bb", "ccc"] (by decide)
  exact ⟨h.1, h.2.2.2.1⟩

/-! ## The vector store (`app/vector_store.py`, `ChromaDBManager.store_chunks`)

`store_chunks` derives one identifier per chunk
(`f"{file_path}_{start_line}_{end_line}"`) and submits ids, documents,
embeddings and the chunk dicts as metadata in a single `collection.add`
call.  ChromaDB itself is external; its `add` is modelled from the spec. -/

structure StoredRecord (E : Type) where
  id : String
  document : String
  embedding : E
  metadata : Chunk
deriving DecidableEq

/-- `f"{chunk['file_path']}_{chunk['start_line']}_{chunk['end_line']}"`. -/
def chunkId (c : Chunk) : String :=
  c.file_path ++ "_" ++ toString c.start_line ++ "_" ++ toString c.end_line

/-- Modelled from the spec: ChromaDB `collection.add` — a record whose
identifier duplicates one already stored, or one submitted earlier in the
same batch, is silently rejected per-record; the call itself never
fails. -/
def collectionAdd {E : Type} (stored : List (StoredRecord E))
    (recs : List (StoredRecord E)) : List (StoredRecord E) :=
  recs.foldl (fun acc r => if r.id ∈ acc.map StoredRecord.id then acc else acc ++ [r]) stored

/-- `ChromaDBManager.store_chunks(collection, chunks, embeddings)`. -/
def store_chunks {E : Type} (collection : List (StoredRecord E))
    (chunks : List Chunk) (embeddings : List E) : List (StoredRecord E) :=
  collectionAdd collection
    ((chunks.zip embeddings).map (fun p => ⟨chunkId p.1, p.1.content, p.2, p.1⟩))

theorem collectionAdd_extends {E : Type} (recs stored : List (StoredRecord E)) :
    ∃ tail, collectionAdd stored recs = stored ++ tail := by
  induction recs generalizing stored with
  | nil => exact ⟨[], by simp [collectionAdd]⟩
  | cons r rs ih =>
    rw [collectionAdd, List.foldl_cons]
    by_cases h : r.id ∈ stored.map StoredRecord.id
    · rw [if_pos h]
      exact ih stored
    · rw [if_neg h]
      obtain ⟨t, ht⟩ := ih (stored ++ [r])
      exact ⟨[r] ++ t, by rw [← List.append_assoc]; exact ht⟩

theorem collectionAdd_mem_ids {E : Type} (recs stored : List (StoredRecord E)) :
    ∀ x ∈ recs.map StoredRecord.id, x ∈ (collectionAdd stored recs).map StoredRecord.id := by
  induction recs generalizing stored with
  | nil => simp
  | cons r rs ih =>
    intro x hx
    rw [collectionAdd, List.foldl_cons]
    have hstep : ∀ acc : List (StoredRecord E),
        r.id ∈ acc.map StoredRecord.id →
        x ∈ rs.map StoredRecord.id ∨ x = r.id →
        x ∈ (collectionAdd acc rs).map StoredRecord.id := by
      intro acc hin hor
      rcases hor with h | h
      · exact ih acc x h
      · obtain ⟨t, ht⟩ := collectionAdd_extends rs acc
        rw [ht, List.map_append]
        exact List.mem_append_left _ (h ▸ hin)
    rw [List.map_cons] at hx
    rcases List.mem_cons.1 hx with h | h
    · by_cases hin : r.id ∈ stored.map StoredRecord.id
      · rw [if_pos hin]
        exact hstep stored hin (Or.inr h)
      · rw [if_neg hin]
        exact hstep (stored ++ [r]) (by simp) (Or.inr h)
    · by_cases hin : r.id ∈ stored.map StoredRecord.id
      · rw [if_pos hin]
        exact hstep stored hin (Or.inl h)
      · rw [if_neg hin]
        exact hstep (stored ++ [r]) (by simp) (Or.inl h)

theorem collectionAdd_of_all_mem {E : Type} (recs stored : List (StoredRecord E))
    (h : ∀ x ∈ recs.map StoredRecord.id, x ∈ stored.map StoredRecord.id) :
    collectionAdd stored recs = stored := by
  induction recs generalizing stored with
  | nil => rfl
  | cons r rs ih =>
    rw [collectionAdd, List.foldl_cons,
      if_pos (h r.id (List.mem_map_of_mem _ (List.mem_cons_self r rs)))]
    exact ih stored (fun x hx => h x (by
      rw [List.map_cons]
      exact List.mem_cons_of_mem _ hx))

theorem collectionAdd_nodup {E : Type} (recs stored : List (StoredRecord E))
    (h : (stored.map StoredRecord.id).Nodup) :
    ((collectionAdd stored recs).map StoredRecord.id).Nodup := by
  induction recs generalizing stored with
  | nil => exact h
  | cons r rs ih =>
    rw [collectionAdd, List.foldl_cons]
    by_cases hin : r.id ∈ stored.map StoredRecord.id
    · rw [if_pos hin]
      exact ih stored h
    · rw [if_neg hin]
      refine ih (stored ++ [r]) ?_
      rw [List.map_append]
      simp [List.nodup_append, h, hin]

theorem store_chunks_batch_ids {E : Type} (chunks : List Chunk) (embeddings : List E)
    (hlen : chunks.length = embeddings.length) :
    ((chunks.zip embeddings).map
        (fun p => (⟨chunkId p.1, p.1.content, p.2, p.1⟩ : StoredRecord E))).map
      StoredRecord.id = chunks.map chunkId := by
  have h1 : ((chunks.zip embeddings).map
      (fun p => (⟨chunkId p.1, p.1.content, p.2, p.1⟩ : StoredRecord E))).map StoredRecord.id
      = (chunks.zip embeddings).map (fun p => chunkId p.1) := by
    rw [List.map_map]
    rfl
  rw [h1, show (fun p : Chunk × E => chunkId p.1) = chunkId ∘ Prod.fst from rfl,
    ← List.map_map, List.map_fst_zip chunks embeddings (le_of_eq hlen)]

/-- C3: Idempotent ingestion.  Re-submitting the same chunks (hence the
same derived identifiers) leaves the collection exactly as it was after
the first call — the record count does not grow, stored records are never
overwritten (the first call only appends), uniqueness of identifiers is
preserved, and the modelled call is total (never raises). -/
theorem store_chunks_idempotent {E : Type} (collection : List (StoredRecord E))
    (chunks : List Chunk) (embeddings embeddings2 : List E)
    (hlen : chunks.length = embeddings.length)
    (hlen2 : chunks.length = embeddings2.length) :
    store_chunks (store_chunks collection chunks embeddings) chunks embeddings2
      = store_chunks collection chunks embeddings ∧
    (store_chunks (store_chunks collection chunks embeddings) chunks embeddings2).length
      = (store_chunks collection chunks embeddings).length ∧
    (∃ tail, store_chunks collection chunks embeddings = collection ++ tail) ∧
    ((collection.map StoredRecord.id).Nodup →
      ((store_chunks collection chunks embeddings).map StoredRecord.id).Nodup) := by
  have heq : store_chunks (store_chunks collection chunks embeddings) chunks embeddings2
      = store_chunks collection chunks embeddings := by
    unfold store_chunks
    apply collectionAdd_of_all_mem
    intro x hx
    rw [store_chunks_batch_ids chunks embeddings2 hlen2] at hx
    rw [← store_chunks_batch_ids chunks embeddings hlen] at hx
    exact collectionAdd_mem_ids _ collection x hx
  refine ⟨heq, by rw [heq], ?_, ?_⟩
  · exact collectionAdd_extends _ collection
  · intro hnd
    exact collectionAdd_nodup _ collection hnd

theorem store_chunks_idempotent_witness :
    store_chunks
        (store_chunks ([] : List (StoredRecord Nat))
          [⟨"print(1)", "a.py", 1, 1, "o", "r"⟩] [7])
        [⟨"print(1)", "a.py", 1, 1, "o", "r"⟩] [9]
      = store_chunks [] [⟨"print(1)", "a.py", 1, 1, "o", "r"⟩] [7] := by
  have h := store_chunks_idempotent ([] : List (StoredRecord Nat))
    [⟨"print(1)", "a.py", 1, 1, "o", "r"⟩] [7] [9] (by decide) (by decide)
  exact h.1

/-! ## The chat node (`app/agent.py`, `chat_node`)

The embedding call, the vector-store retrieval
(`create_or_get_collection` followed by `query_similar_code`, whose
`results['documents'][0]` is the returned document list) and the
chat-completion call are oracles that may fail; the `try/except` of
`chat_node` converts the first failure into a fixed apologetic update. -/

structure Turn where
  role : String
  content : String
deriving DecidableEq, Repr

/-- The fields of the agent state read by `chat_node`. -/
structure RAGState where
  owner : String
  repo : String
  collection_name : String
  chat_history : List Turn
deriving DecidableEq, Repr

/-- The partial state update returned by `chat_node`; `none` means the key
is absent from the returned dict, so the graph keeps the old value — in
particular an absent `chat_history` leaves the history unchanged. -/
structure ChatUpdate where
  answer : Option String
  chat_history : Option (List Turn)
  error : Option String
deriving DecidableEq, Repr

def welcomeMessage (owner repo : String) : String :=
  "Hello! I\x27m ready to help you with questions about the " ++ owner ++ "/" ++ repo
    ++ " repository. What would you like to know?"

def systemPrompt (owner repo : String) : String :=
  "You are a helpful codebase assistant for the GitHub repository " ++ owner ++ "/" ++ repo
    ++ ". \n        \nYour task is to answer questions about the codebase using the provided context from the repository\x27s code.\n\nGuidelines:\n- Provide clear, concise answers based on the code context\n- Include relevant code snippets when helpful\n- If the context doesn\x27t contain enough information to answer the question, say so\n- Reference specific files or functions when relevant\n- Be conversational and helpful\n- Consider the conversation history when providing context-aware responses"

def userPrompt (context conversation_context query : String) : String :=
  "Context from codebase:\n" ++ context ++ "\n\n" ++ conversation_context
    ++ "\n\nCurrent Question: " ++ query
    ++ "\n\nPlease provide a helpful answer based on the codebase context."

/-- The `conversation_context` accumulation: if more than one turn, format
the last six turns minus the current query as previous question/answer
lines. -/
def conversationContext (history : List Turn) : String :=
  if 1 < history.length then
    ((history.drop (history.length - 6)).dropLast).foldl
      (fun acc msg =>
        if msg.role = "user" then acc ++ "Previous Question: " ++ msg.content ++ "\n"
        else if msg.role = "assistant" then acc ++ "Previous Answer: " ++ msg.content ++ "\n"
        else acc) ""
  else ""

/-- The `except` branch of `chat_node`. -/
def chatFailure (e : String) : ChatUpdate :=
  { answer := some "Sorry, I encountered an error while processing your question.",
    chat_history := none,
    error := some ("Error in chat: " ++ e) }

/-- `chat_node(state)` from `app/agent.py`. -/
def chat_node {E : Type} (embed : String → Except String E)
    (retrieve : String → E → Except String (List String))
    (llm : String → String → Except String String)
    (st : RAGState) : ChatUpdate :=
  match st.chat_history.getLast? with
  | none =>
    let w := welcomeMessage st.owner st.repo
    { answer := some w, chat_history := some [⟨"assistant", w⟩], error := some "" }
  | some lastTurn =>
    match embed lastTurn.content with
    | .error e => chatFailure e
    | .ok queryEmbedding =>
      match retrieve st.collection_name queryEmbedding with
      | .error e => chatFailure e
      | .ok docs =>
        match llm (systemPrompt st.owner st.repo)
            (userPrompt (String.intercalate "\n\n" docs)
              (conversationContext st.chat_history) lastTurn.content) with
        | .error e => chatFailure e
        | .ok answer =>
          { answer := some answer,
            chat_history := some (st.chat_history ++ [⟨"assistant", answer⟩]),
            error := some "" }

/-- C8: Empty-history greeting frame property.  With an empty (or absent)
chat history, `chat_node` returns the owner/repo greeting as the answer,
a history consisting of that single assistant turn, and an empty error —
and its result does not depend on the embedding, retrieval or
language-model oracles at all (no such call is performed). -/
theorem chat_node_empty_history {E E2 : Type}
    (embed : String → Except String E) (retrieve : String → E → Except String (List String))
    (llm : String → String → Except String String)
    (embed2 : String → Except String E2) (retrieve2 : String → E2 → Except String (List String))
    (llm2 : String → String → Except String String)
    (st : RAGState) (h : st.chat_history = []) :
    chat_node embed retrieve llm st
      = { answer := some (welcomeMessage st.owner st.repo),
          chat_history := some [⟨"assistant", welcomeMessage st.owner st.repo⟩],
          error := some "" } ∧
    chat_node embed retrieve llm st = chat_node embed2 retrieve2 llm2 st := by
  have hl : st.chat_history.getLast? = none := by
    rw [h]
    rfl
  constructor
  · unfold chat_node
    rw [hl]
  · unfold chat_node
    rw [hl]

theorem chat_node_empty_history_witness :
    chat_node (fun _ => Except.ok (0 : Nat)) (fun _ _ => Except.ok [])
        (fun _ _ => Except.ok "hi") ⟨"o", "r", "c", []⟩
      = { answer := some (welcomeMessage "o" "r"),
          chat_history := some [⟨"assistant", welcomeMessage "o" "r"⟩],
          error := some "" } ∧
    chat_node (fun _ => Except.ok (0 : Nat)) (fun _ _ => Except.ok [])
        (fun _ _ => Except.ok "hi") ⟨"o", "r", "c", []⟩
      = chat_node (fun _ => (Except.error "x" : Except String Bool))
          (fun _ _ => Except.error "y") (fun _ _ => Except.error "z") ⟨"o", "r", "c", []⟩ :=
  chat_node_empty_history _ _ _ _ _ _ ⟨"o", "r", "c", []⟩ rfl

/-- C7: Chat-turn error atomicity.  With a non-empty history, if the
embedding, retrieval or language-model oracle fails, `chat_node` returns
the fixed apologetic answer together with a non-empty error marker, and
its returned update carries no `chat_history` key — the history is left
unchanged, with no assistant turn appended; the failure is an ordinary
return value, not an exception escaping the node. -/
theorem chat_node_error_atomicity {E : Type}
    (embed : String → Except String E)
    (retrieve : String → E → Except String (List String))
    (llm : String → String → Except String String)
    (st : RAGState) (t : Turn) (hlast : st.chat_history.getLast? = some t)
    (hfail :
      (∃ e, embed t.content = .error e) ∨
      (∃ qe e, embed t.content = .ok qe ∧ retrieve st.collection_name qe = .error e) ∨
      (∃ qe docs e, embed t.content = .ok qe ∧ retrieve st.collection_name qe = .ok docs ∧
        llm (systemPrompt st.owner st.repo)
          (userPrompt (String.intercalate "\n\n" docs) (conversationContext st.chat_history)
            t.content) = .error e)) :
    (chat_node embed retrieve llm st).answer
      = some "Sorry, I encountered an error while processing your question." ∧
    (chat_node embed retrieve llm st).chat_history = none ∧
    ∃ m, (chat_node embed retrieve llm st).error = some ("Error in chat: " ++ m) ∧
      ("Error in chat: " ++ m) ≠ "" := by
  have hne : ∀ m : String, ("Error in chat: " ++ m) ≠ "" := by
    intro m hm
    have hlen := congrArg String.length hm
    rw [String.length_append] at hlen
    have h15 : ("Error in chat: " : String).length = 15 := rfl
    have h0 : ("" : String).length = 0 := rfl
    rw [h15, h0] at hlen
    omega
  unfold chat_node
  simp only [hlast]
  rcases hfail with ⟨e, he⟩ | ⟨qe, e, hqe, he⟩ | ⟨qe, docs, e, hqe, hdocs, he⟩
  · simp only [he]
    exact ⟨rfl, rfl, e, rfl, hne e⟩
  · simp only [hqe, he]
    exact ⟨rfl, rfl, e, rfl, hne e⟩
  · simp only [hqe, hdocs, he]
    exact ⟨rfl, rfl, e, rfl, hne e⟩

theorem chat_node_error_atomicity_witness :
    (chat_node (fun _ => (Except.error "boom" : Except String Nat))
        (fun _ _ => Except.ok []) (fun _ _ => Except.ok "a")
        ⟨"o", "r", "c", [⟨"user", "q"⟩]⟩).answer
      = some "Sorry, I encountered an error while processing your question." ∧
    (chat_node (fun _ => (Except.error "boom" : Except String Nat))
        (fun _ _ => Except.ok []) (fun _ _ => Except.ok "a")
        ⟨"o", "r", "c", [⟨"user", "q"⟩]⟩).chat_history = none := by
  have h := chat_node_error_atomicity (fun _ => (Except.error "boom" : Except String Nat))
    (fun _ _ => Except.ok []) (fun _ _ => Except.ok "a")
    ⟨"o", "r", "c", [⟨"user", "q"⟩]⟩ ⟨"user", "q"⟩ rfl
    (Or.inl ⟨"boom", rfl⟩)
  exact ⟨h.1, h.2.1⟩
